import Mathlib

set_option maxHeartbeats 1600000

/-
Verification of the parallel block executor specification of this repository.

The block-executor core itself (multi-version data store, scheduler, aggregator
delta layer) is exercised by the proptest harness under
aptos-move/block-executor/src/proptest_types/tests.rs; its data model and
operations are embedded here following the specification text.  The AptosVM
entry points (concurrency level once-cell, epoch-change restart check) are
embedded from aptos-move/aptos-vm/src/aptos_vm.rs.
-/

namespace BlockSTM

/-- Modelled from the spec: a storage location, an opaque key together with a kind
flag distinguishing module (code) locations from data locations.  Mirrors the
proptest key type KeyType(key, module_path). -/
structure Loc where
  key : Nat
  isModule : Bool
deriving DecidableEq

/-- Modelled from the spec: the result of one transaction incarnation as returned by
the opaque VM adapter: a write-set, emitted events, gas used, and whether the
transaction signalled SkipRest (skip the remainder of the block). -/
structure TxnOut where
  writes : List (Loc × Nat)
  events : List Nat
  gas : Nat
  skipRest : Bool
deriving DecidableEq

/-- Modelled from the spec: a transaction as the core sees it, an interactive program
that alternately requests reads of locations (so the read-set is dynamic, discovered
during execution) and finally yields its result.  The VM adapter is deterministic
given the same versioned observations. -/
inductive TxnProg where
  | done : TxnOut → TxnProg
  | readLoc : Loc → (Option Nat → TxnProg) → TxnProg

/-- Modelled from the spec: the per-transaction statuses surfaced in the output
vector; skipped transactions are emitted as Retry. -/
inductive Status where
  | Success : Status
  | SkipRest : Status
  | Retry : Status
deriving DecidableEq

/-- Modelled from the spec: an element of the final output vector. -/
structure Output where
  writes : List (Loc × Nat)
  events : List Nat
  gas : Nat
  status : Status
deriving DecidableEq

/-- Modelled from the spec: the output slot emitted for a skipped transaction:
status Retry with an empty write-set. -/
def retryOutput : Output := ⟨[], [], 0, Status.Retry⟩

/-- Run a transaction program against a plain store, returning its result together
with the ordered list of locations it read (its read-set). -/
def runProgTrace (st : Loc → Option Nat) : TxnProg → TxnOut × List Loc
  | TxnProg.done r => (r, [])
  | TxnProg.readLoc l k =>
    let rest := runProgTrace st (k (st l))
    (rest.1, l :: rest.2)

/-- Run a transaction program against an explicit answer sequence: the t-th read
request is answered with ans t.  Returns the result and the read-set. -/
def runWithAnswers (ans : Nat → Option Nat) : TxnProg → TxnOut × List Loc
  | TxnProg.done r => (r, [])
  | TxnProg.readLoc l k =>
    let rest := runWithAnswers (fun t => ans (t + 1)) (k (ans 0))
    (rest.1, l :: rest.2)

/-- The last write to location l in a write-set.  The multi-version store keeps one
entry per (location, transaction); a later write by the same transaction replaces
the earlier one, so the final entry is the last write in the list. -/
def writeLast (ws : List (Loc × Nat)) (l : Loc) : Option Nat :=
  ws.foldl (fun acc p => if p.1 = l then some p.2 else acc) none

/-- Overlay a write-set on a store: locations written take the written value, all
other locations fall through. -/
def applyWrites (st : Loc → Option Nat) (ws : List (Loc × Nat)) : Loc → Option Nat :=
  fun l =>
    match writeLast ws l with
    | some v => some v
    | none => st l

/-- Whether a cumulative gas total exceeds the optional per-block gas limit. -/
def gasExceeds (gasLimit : Option Nat) (g : Nat) : Bool :=
  match gasLimit with
  | some limit => decide (limit < g)
  | none => false

/-- Sequential executor state: the store overlay accumulated so far, the cumulative
block gas, and whether the commit pipeline has halted (SkipRest or gas cap). -/
structure SeqSt where
  store : Loc → Option Nat
  gasUsed : Nat
  halted : Bool

/-- Modelled from the spec (commit pipeline, serial semantics): one sequential step.
If already halted, nothing changes; otherwise the transaction runs against the
current store, its writes are applied, its gas is added, and the pipeline halts
for later indices when the transaction signals SkipRest or the running total
exceeds the per-block gas limit. -/
def seqStep (gasLimit : Option Nat) (p : TxnProg) (s : SeqSt) : SeqSt :=
  if s.halted then s
  else
    let r := (runProgTrace s.store p).1
    ⟨applyWrites s.store r.writes, s.gasUsed + r.gas,
      r.skipRest || gasExceeds gasLimit (s.gasUsed + r.gas)⟩

/-- The sequential executor state reached before transaction index i. -/
def seqState (txn : Nat → TxnProg) (base : Loc → Option Nat) (gasLimit : Option Nat) :
    Nat → SeqSt
  | 0 => ⟨base, 0, false⟩
  | i + 1 => seqStep gasLimit (txn i) (seqState txn base gasLimit i)

/-- The committed VM result of transaction i under sequential execution. -/
def seqTxnOut (txn : Nat → TxnProg) (base : Loc → Option Nat) (gasLimit : Option Nat)
    (i : Nat) : TxnOut :=
  (runProgTrace (seqState txn base gasLimit i).store (txn i)).1

/-- The read-set of transaction i under sequential execution. -/
def seqReadSet (txn : Nat → TxnProg) (base : Loc → Option Nat) (gasLimit : Option Nat)
    (i : Nat) : List Loc :=
  (runProgTrace (seqState txn base gasLimit i).store (txn i)).2

/-- Package a VM result as an output-vector element. -/
def mkOutput (r : TxnOut) : Output :=
  ⟨r.writes, r.events, r.gas, if r.skipRest then Status.SkipRest else Status.Success⟩

/-- The output emitted at slot i by sequential execution: Retry with an empty
write-set when the pipeline has halted before i, the normal output otherwise. -/
def seqOutAt (txn : Nat → TxnProg) (base : Loc → Option Nat) (gasLimit : Option Nat)
    (i : Nat) : Output :=
  if (seqState txn base gasLimit i).halted then retryOutput
  else mkOutput (seqTxnOut txn base gasLimit i)

/-- Modelled from the spec: serial execution of the ordered transactions against the
base view, the reference semantics for the block executor. -/
def execute_transactions_sequential (N : Nat) (txn : Nat → TxnProg)
    (base : Loc → Option Nat) (gasLimit : Option Nat) : List Output :=
  (List.range N).map (seqOutAt txn base gasLimit)

/-- Modelled from the spec: the record of one parallel run with worker interleaving
abstracted away: obs i t is the answer the committed (finally validated)
incarnation of transaction i received for its t-th read. -/
structure ParRun where
  obs : Nat → Nat → Option Nat

/-- The VM result of the committed incarnation of transaction i in a parallel run. -/
def runOut (txn : Nat → TxnProg) (run : ParRun) (i : Nat) : TxnOut :=
  (runWithAnswers (run.obs i) (txn i)).1

/-- The read-set of the committed incarnation of transaction i in a parallel run. -/
def runReadSet (txn : Nat → TxnProg) (run : ParRun) (i : Nat) : List Loc :=
  (runWithAnswers (run.obs i) (txn i)).2

/-- Modelled from the spec (multi-version predecessor rule): the value of location l
visible to reader i is the write of the transaction with the largest index below i
that wrote l, falling back to the base view when no such writer exists. -/
def mvLook (txn : Nat → TxnProg) (run : ParRun) (base : Loc → Option Nat) (i : Nat)
    (l : Loc) : Option Nat :=
  (List.range i).foldl
    (fun acc j =>
      match writeLast (runOut txn run j).writes l with
      | some v => some v
      | none => acc)
    (base l)

/-- The halted flag and cumulative gas of the parallel commit pipeline before
index i; these mirror the sequential commit rules (in-order commit, SkipRest and
gas-cap halting). -/
def parState (txn : Nat → TxnProg) (run : ParRun) (gasLimit : Option Nat) :
    Nat → Bool × Nat
  | 0 => (false, 0)
  | i + 1 =>
    let p := parState txn run gasLimit i
    if p.1 then p
    else
      let r := runOut txn run i
      (r.skipRest || gasExceeds gasLimit (p.2 + r.gas), p.2 + r.gas)

/-- The first m answers of an answer sequence as a list. -/
def answersList (ans : Nat → Option Nat) (m : Nat) : List (Option Nat) :=
  (List.range m).map ans

/-- Modelled from the spec: a run is valid when every committed incarnation's
read-set validated, i.e. each of its reads observed exactly the value the
multi-version predecessor rule yields over the committed write-sets of the
strictly earlier transactions (no commit without validation). -/
def ValidRun (N : Nat) (txn : Nat → TxnProg) (base : Loc → Option Nat)
    (gasLimit : Option Nat) (run : ParRun) : Prop :=
  ∀ i, i < N → (parState txn run gasLimit i).1 = false →
    answersList (run.obs i) (runReadSet txn run i).length =
      (runReadSet txn run i).map (mvLook txn run base i)

instance decidableValidRun (N : Nat) (txn : Nat → TxnProg) (base : Loc → Option Nat)
    (gasLimit : Option Nat) (run : ParRun) : Decidable (ValidRun N txn base gasLimit run) := by
  unfold ValidRun
  infer_instance

/-- The output emitted at slot i by a parallel run. -/
def parOutAt (txn : Nat → TxnProg) (run : ParRun) (gasLimit : Option Nat) (i : Nat) :
    Output :=
  if (parState txn run gasLimit i).1 then retryOutput
  else mkOutput (runOut txn run i)

/-- The full output vector of a parallel run: one slot per input transaction. -/
def parOutputs (N : Nat) (txn : Nat → TxnProg) (run : ParRun) (gasLimit : Option Nat) :
    List Output :=
  (List.range N).map (parOutAt txn run gasLimit)

/-- Indices whose transactions commit (are not beyond the halt point) in a
parallel run. -/
def committedIdxs (N : Nat) (txn : Nat → TxnProg) (run : ParRun)
    (gasLimit : Option Nat) : List Nat :=
  (List.range N).filter (fun i => !(parState txn run gasLimit i).1)

/-- Module-kind locations read by committed incarnations across the block. -/
def blockModuleReads (N : Nat) (txn : Nat → TxnProg) (run : ParRun)
    (gasLimit : Option Nat) : List Loc :=
  (committedIdxs N txn run gasLimit).flatMap
    (fun i => (runReadSet txn run i).filter (fun l => l.isModule))

/-- Module-kind locations written by committed incarnations across the block. -/
def blockModuleWrites (N : Nat) (txn : Nat → TxnProg) (run : ParRun)
    (gasLimit : Option Nat) : List Loc :=
  (committedIdxs N txn run gasLimit).flatMap
    (fun i => ((runOut txn run i).writes.map Prod.fst).filter (fun l => l.isModule))

/-- Modelled from the spec (module-access guard): whether some module-kind location
is both read and written within the block. -/
def moduleConflict (N : Nat) (txn : Nat → TxnProg) (run : ParRun)
    (gasLimit : Option Nat) : Bool :=
  (blockModuleReads N txn run gasLimit).any
    (fun l => (blockModuleWrites N txn run gasLimit).any (fun w => decide (w = l)))

/-- Modelled from the spec: the block-level errors surfaced to the caller. -/
inductive BlockError where
  | ModulePathReadWrite : BlockError
deriving DecidableEq

/-- Modelled from the spec: parallel block execution with concurrency level W; the
thread interleaving is abstracted into the run record.  When the module-access
guard trips, the block-level ModulePathReadWrite error is returned instead of an
output vector; otherwise the per-slot outputs are returned. -/
def execute_transactions_parallel (W : Nat) (N : Nat) (txn : Nat → TxnProg)
    (base : Loc → Option Nat) (gasLimit : Option Nat) (run : ParRun) :
    Except BlockError (List Output) :=
  if moduleConflict N txn run gasLimit then Except.error BlockError.ModulePathReadWrite
  else Except.ok (parOutputs N txn run gasLimit)

/-- Indices whose transactions commit under sequential execution. -/
def seqCommittedIdxs (N : Nat) (txn : Nat → TxnProg) (base : Loc → Option Nat)
    (gasLimit : Option Nat) : List Nat :=
  (List.range N).filter (fun i => !(seqState txn base gasLimit i).halted)

/-- Module-kind locations read by committed transactions under sequential
execution. -/
def seqModuleReads (N : Nat) (txn : Nat → TxnProg) (base : Loc → Option Nat)
    (gasLimit : Option Nat) : List Loc :=
  (seqCommittedIdxs N txn base gasLimit).flatMap
    (fun i => (seqReadSet txn base gasLimit i).filter (fun l => l.isModule))

/-- Module-kind locations written by committed transactions under sequential
execution. -/
def seqModuleWrites (N : Nat) (txn : Nat → TxnProg) (base : Loc → Option Nat)
    (gasLimit : Option Nat) : List Loc :=
  (seqCommittedIdxs N txn base gasLimit).flatMap
    (fun i => ((seqTxnOut txn base gasLimit i).writes.map Prod.fst).filter
      (fun l => l.isModule))

/-- The module-access guard evaluated on the sequential reference execution. -/
def seqModuleConflict (N : Nat) (txn : Nat → TxnProg) (base : Loc → Option Nat)
    (gasLimit : Option Nat) : Bool :=
  (seqModuleReads N txn base gasLimit).any
    (fun l => (seqModuleWrites N txn base gasLimit).any (fun w => decide (w = l)))

end BlockSTM

namespace MVDS

/-- Modelled from the spec: the flag carried by every multi-version write entry:
Estimate marks a provisional value left behind by an aborted incarnation,
Resolved marks a normally written value. -/
inductive Flag where
  | Estimate : Flag
  | Resolved : Flag
deriving DecidableEq

/-- Modelled from the spec: one multi-version write entry: the location and writer
transaction index it is stored under, the written value, the writer incarnation,
and the Estimate/Resolved flag. -/
structure Entry where
  loc : Nat
  txi : Nat
  value : Nat
  inc : Nat
  flag : Flag
deriving DecidableEq

/-- Modelled from the spec: the result of a versioned read: a value with the version
that wrote it, a dependency on an aborted writer, or Storage (no speculative
writer below the reader exists). -/
inductive ReadResult where
  | Value : Nat → Nat × Nat → ReadResult
  | Dependency : Nat → ReadResult
  | Storage : ReadResult
deriving DecidableEq

/-- The entry for location l with the largest writer index strictly below txi, if
one exists.  The search is by transaction index only, never by incarnation. -/
def predEntry : List Entry → Nat → Nat → Option Entry
  | [], _, _ => none
  | e :: rest, l, txi =>
    let r := predEntry rest l txi
    if e.loc = l ∧ e.txi < txi then
      match r with
      | none => some e
      | some a => if a.txi < e.txi then some e else some a
    else r

/-- Modelled from the spec: the versioned read.  It returns the entry at the largest
writer index strictly below the reader; an Estimate entry surfaces as a
Dependency on its writer; with no entry below the reader it returns Storage. -/
def read (m : List Entry) (l txi : Nat) : ReadResult :=
  match predEntry m l txi with
  | none => ReadResult.Storage
  | some e =>
    if e.flag = Flag.Estimate then ReadResult.Dependency e.txi
    else ReadResult.Value e.value (e.txi, e.inc)

/-- Modelled from the spec: set the Estimate flag on the entry at (loc, txi) without
changing its value or version; all other entries are untouched. -/
def mark_estimate (m : List Entry) (l txi : Nat) : List Entry :=
  m.map (fun e =>
    if e.loc = l ∧ e.txi = txi then ⟨e.loc, e.txi, e.value, e.inc, Flag.Estimate⟩ else e)

/-- Modelled from the spec: mark_estimate applied to every location of an aborted
incarnation's write-set. -/
def mark_estimate_all (m : List Entry) (ws : List Nat) (txi : Nat) : List Entry :=
  ws.foldl (fun acc l => mark_estimate acc l txi) m

/-- Replace every entry's incarnation number through f, leaving location, writer
index, value and flag unchanged; used to state that reads never depend on
incarnation numbers for the predecessor choice. -/
def setInc (f : Nat → Nat) (e : Entry) : Entry :=
  ⟨e.loc, e.txi, e.value, f e.inc, e.flag⟩

/-- Apply setInc to a whole store. -/
def setIncs (f : Nat → Nat) (m : List Entry) : List Entry :=
  m.map (setInc f)

end MVDS

namespace AggDelta

/-- Modelled from the spec: apply one signed aggregator delta to a counter value,
failing (delta application failure) when the result would leave the declared
bounds. -/
def applyDelta (lb ub v d : Int) : Option Int :=
  if lb ≤ v + d ∧ v + d ≤ ub then some (v + d) else none

/-- Modelled from the spec: materialize a sequence of deltas against a base value,
applying them in the given order and checking the bounds at every intermediate
value. -/
def materialize (lb ub : Int) : Int → List Int → Option Int
  | base, [] => some base
  | base, d :: ds =>
    match applyDelta lb ub base d with
    | some w => materialize lb ub w ds
    | none => none

/-- Every prefix partial sum of the deltas stays within the declared bounds. -/
def prefixSumsInBounds (lb ub base : Int) (ds : List Int) : Prop :=
  ∀ n, n ≤ ds.length → lb ≤ base + (ds.take n).sum ∧ base + (ds.take n).sum ≤ ub

instance decidablePrefixSumsInBounds (lb ub base : Int) (ds : List Int) :
    Decidable (prefixSumsInBounds lb ub base ds) := by
  unfold prefixSumsInBounds
  infer_instance

end AggDelta

namespace AptosVM

/-- Embedded from aptos_vm.rs set_concurrency_level_once: the requested level is
clamped to min(requested, number of logical CPUs) and stored in a once-cell;
only the first call succeeds, later calls leave the cell unchanged. -/
def set_concurrency_level_once (numCpus : Nat) (cell : Option Nat) (requested : Nat) :
    Option Nat :=
  match cell with
  | some v => some v
  | none => some (min requested numCpus)

/-- Embedded from aptos_vm.rs get_concurrency_level: the stored level if the cell was
set, otherwise the default 1 (sequential execution). -/
def get_concurrency_level (cell : Option Nat) : Nat :=
  match cell with
  | some v => v
  | none => 1

/-- A contract event as far as the restart check inspects it: its event key and an
opaque payload. -/
structure ContractEvent where
  key : Nat
  payload : List Nat
deriving DecidableEq

/-- A transaction output as far as the restart check inspects it: its write-set and
emitted events. -/
structure TransactionOutput where
  writeSet : List (Nat × Nat)
  events : List ContractEvent
deriving DecidableEq

/-- Embedded from aptos_vm.rs should_restart_execution: true exactly when some event
of the output carries the distinguished new-epoch event key.  The key itself is an
opaque constant provided by aptos_types, passed here as a parameter. -/
def should_restart_execution (newEpochEventKey : Nat) (vmOutput : TransactionOutput) :
    Bool :=
  vmOutput.events.any (fun event => event.key == newEpochEventKey)

end AptosVM

namespace BlockSTM

theorem answersList_pointwise {ans : Nat → Option Nat} {locs : List Loc}
    {f : Loc → Option Nat} (h : answersList ans locs.length = locs.map f) :
    ∀ t l, locs[t]? = some l → ans t = f l := by
  intro t l hget
  obtain ⟨htlen, hgetv⟩ := List.getElem?_eq_some_iff.mp hget
  have h1 : (answersList ans locs.length)[t]? = (locs.map f)[t]? := by rw [h]
  rw [answersList, List.getElem?_map, List.getElem?_map,
    List.getElem?_range (by simpa using htlen), hget] at h1
  simpa using h1

theorem runWithAnswers_eq_trace (st : Loc → Option Nat) :
    ∀ (p : TxnProg) (ans : Nat → Option Nat),
      (∀ t l, (runWithAnswers ans p).2[t]? = some l → ans t = st l) →
      runWithAnswers ans p = runProgTrace st p := by
  intro p
  induction p with
  | done r => intro ans _; rfl
  | readLoc l k ih =>
    intro ans h
    have h0 : ans 0 = st l := by
      apply h 0 l
      simp [runWithAnswers]
    have hrest : ∀ t l2,
        (runWithAnswers (fun t => ans (t + 1)) (k (ans 0))).2[t]? = some l2 →
        ans (t + 1) = st l2 := by
      intro t l2 hg
      apply h (t + 1) l2
      simpa [runWithAnswers] using hg
    have hk := ih (ans 0) (fun t => ans (t + 1)) hrest
    simp only [runWithAnswers, runProgTrace]
    rw [hk, h0]

theorem mvLook_succ (txn : Nat → TxnProg) (run : ParRun) (base : Loc → Option Nat)
    (i : Nat) (l : Loc) :
    mvLook txn run base (i + 1) l =
      match writeLast (runOut txn run i).writes l with
      | some v => some v
      | none => mvLook txn run base i l := by
  show (List.range (i + 1)).foldl _ _ = _
  rw [List.range_succ, List.foldl_append, List.foldl_cons, List.foldl_nil]
  rfl

theorem mvLook_zero (txn : Nat → TxnProg) (run : ParRun) (base : Loc → Option Nat)
    (l : Loc) : mvLook txn run base 0 l = base l := rfl

theorem validRun_state_eq (N : Nat) (txn : Nat → TxnProg) (base : Loc → Option Nat)
    (gasLimit : Option Nat) (run : ParRun) (hv : ValidRun N txn base gasLimit run) :
    ∀ i, i ≤ N →
      (parState txn run gasLimit i).1 = (seqState txn base gasLimit i).halted ∧
      (parState txn run gasLimit i).2 = (seqState txn base gasLimit i).gasUsed ∧
      ((seqState txn base gasLimit i).halted = false →
        mvLook txn run base i = (seqState txn base gasLimit i).store) := by
  intro i
  induction i with
  | zero =>
    intro _
    refine ⟨rfl, rfl, ?_⟩
    intro _
    funext l
    rfl
  | succ i ih =>
    intro hiN
    obtain ⟨h1, h2, h3⟩ := ih (Nat.le_of_succ_le hiN)
    by_cases hH : (seqState txn base gasLimit i).halted
    · have hp : (parState txn run gasLimit i).1 = true := by rw [h1, hH]
      have hpar : parState txn run gasLimit (i + 1) = parState txn run gasLimit i := by
        simp [parState, hp]
      have hseq : seqState txn base gasLimit (i + 1) = seqState txn base gasLimit i := by
        simp [seqState, seqStep, hH]
      rw [hpar, hseq]
      refine ⟨h1, h2, ?_⟩
      intro hcon
      rw [hcon] at hH
      simp at hH
    · have hHf : (seqState txn base gasLimit i).halted = false := by
        simpa using hH
      have hp : (parState txn run gasLimit i).1 = false := by rw [h1, hHf]
      have hst : mvLook txn run base i = (seqState txn base gasLimit i).store := h3 hHf
      have hval := hv i (Nat.lt_of_succ_le hiN) hp
      rw [hst] at hval
      have hrun : runWithAnswers (run.obs i) (txn i) =
          runProgTrace (seqState txn base gasLimit i).store (txn i) :=
        runWithAnswers_eq_trace _ _ _ (answersList_pointwise hval)
      have hout : runOut txn run i = seqTxnOut txn base gasLimit i := by
        rw [runOut, seqTxnOut, hrun]
      have hpar : parState txn run gasLimit (i + 1) =
          ((seqTxnOut txn base gasLimit i).skipRest ||
            gasExceeds gasLimit ((seqState txn base gasLimit i).gasUsed +
              (seqTxnOut txn base gasLimit i).gas),
           (seqState txn base gasLimit i).gasUsed + (seqTxnOut txn base gasLimit i).gas) := by
        simp [parState, hp, hout, h2]
      have hseq : seqState txn base gasLimit (i + 1) =
          ⟨applyWrites (seqState txn base gasLimit i).store
              (seqTxnOut txn base gasLimit i).writes,
            (seqState txn base gasLimit i).gasUsed + (seqTxnOut txn base gasLimit i).gas,
            (seqTxnOut txn base gasLimit i).skipRest ||
              gasExceeds gasLimit ((seqState txn base gasLimit i).gasUsed +
                (seqTxnOut txn base gasLimit i).gas)⟩ := by
        show seqStep gasLimit (txn i) (seqState txn base gasLimit i) = _
        rw [seqStep]
        simp [hHf, seqTxnOut]
      refine ⟨?_, ?_, ?_⟩
      · rw [hpar, hseq]
      · rw [hpar, hseq]
      · intro _
        funext l
        rw [mvLook_succ, hout, hseq]
        show _ = applyWrites (seqState txn base gasLimit i).store
          (seqTxnOut txn base gasLimit i).writes l
        rw [applyWrites]
        cases writeLast (seqTxnOut txn base gasLimit i).writes l with
        | none =>
          simp only []
          rw [hst]
        | some v => rfl

theorem validRun_runOut_eq (N : Nat) (txn : Nat → TxnProg) (base : Loc → Option Nat)
    (gasLimit : Option Nat) (run : ParRun) (hv : ValidRun N txn base gasLimit run)
    (i : Nat) (hiN : i < N) (hflag : (parState txn run gasLimit i).1 = false) :
    runOut txn run i = seqTxnOut txn base gasLimit i ∧
      runReadSet txn run i = seqReadSet txn base gasLimit i := by
  obtain ⟨h1, _, h3⟩ := validRun_state_eq N txn base gasLimit run hv i (Nat.le_of_lt hiN)
  have hHf : (seqState txn base gasLimit i).halted = false := by rw [← h1, hflag]
  have hst : mvLook txn run base i = (seqState txn base gasLimit i).store := h3 hHf
  have hval := hv i hiN hflag
  rw [hst] at hval
  have hrun : runWithAnswers (run.obs i) (txn i) =
      runProgTrace (seqState txn base gasLimit i).store (txn i) :=
    runWithAnswers_eq_trace _ _ _ (answersList_pointwise hval)
  exact ⟨by rw [runOut, seqTxnOut, hrun], by rw [runReadSet, seqReadSet, hrun]⟩

theorem validRun_outputs_eq (N : Nat) (txn : Nat → TxnProg) (base : Loc → Option Nat)
    (gasLimit : Option Nat) (run : ParRun) (hv : ValidRun N txn base gasLimit run) :
    parOutputs N txn run gasLimit = execute_transactions_sequential N txn base gasLimit := by
  apply List.map_congr_left
  intro i hi
  have hiN : i < N := List.mem_range.mp hi
  obtain ⟨h1, _, _⟩ := validRun_state_eq N txn base gasLimit run hv i (Nat.le_of_lt hiN)
  rw [parOutAt, seqOutAt, h1]
  by_cases hH : (seqState txn base gasLimit i).halted
  · simp [hH]
  · have hHf : (seqState txn base gasLimit i).halted = false := by simpa using hH
    have hp : (parState txn run gasLimit i).1 = false := by rw [h1, hHf]
    have hout := (validRun_runOut_eq N txn base gasLimit run hv i hiN hp).1
    simp [hHf, hout]

theorem flatMap_congr_mem {α β : Type} {f g : α → List β} :
    ∀ (l : List α), (∀ a ∈ l, f a = g a) → l.flatMap f = l.flatMap g := by
  intro l
  induction l with
  | nil => intro _; rfl
  | cons a rest ih =>
    intro h
    simp only [List.flatMap_cons]
    rw [h a (List.mem_cons_self a rest), ih (fun b hb => h b (List.mem_cons_of_mem a hb))]

theorem validRun_committedIdxs_eq (N : Nat) (txn : Nat → TxnProg)
    (base : Loc → Option Nat) (gasLimit : Option Nat) (run : ParRun)
    (hv : ValidRun N txn base gasLimit run) :
    committedIdxs N txn run gasLimit = seqCommittedIdxs N txn base gasLimit := by
  apply List.filter_congr
  intro i hi
  have hiN : i < N := List.mem_range.mp hi
  obtain ⟨h1, _, _⟩ := validRun_state_eq N txn base gasLimit run hv i (Nat.le_of_lt hiN)
  rw [h1]

theorem validRun_moduleSets_eq (N : Nat) (txn : Nat → TxnProg)
    (base : Loc → Option Nat) (gasLimit : Option Nat) (run : ParRun)
    (hv : ValidRun N txn base gasLimit run) :
    blockModuleReads N txn run gasLimit = seqModuleReads N txn base gasLimit ∧
      blockModuleWrites N txn run gasLimit = seqModuleWrites N txn base gasLimit := by
  have hmem : ∀ i ∈ seqCommittedIdxs N txn base gasLimit,
      i < N ∧ (parState txn run gasLimit i).1 = false := by
    intro i hi
    rw [seqCommittedIdxs, List.mem_filter, List.mem_range] at hi
    obtain ⟨h1, _, _⟩ := validRun_state_eq N txn base gasLimit run hv i (Nat.le_of_lt hi.1)
    refine ⟨hi.1, ?_⟩
    rw [h1]
    simpa using hi.2
  constructor
  · rw [blockModuleReads, seqModuleReads,
      validRun_committedIdxs_eq N txn base gasLimit run hv]
    apply flatMap_congr_mem
    intro i hi
    obtain ⟨hiN, hp⟩ := hmem i hi
    rw [(validRun_runOut_eq N txn base gasLimit run hv i hiN hp).2]
  · rw [blockModuleWrites, seqModuleWrites,
      validRun_committedIdxs_eq N txn base gasLimit run hv]
    apply flatMap_congr_mem
    intro i hi
    obtain ⟨hiN, hp⟩ := hmem i hi
    rw [(validRun_runOut_eq N txn base gasLimit run hv i hiN hp).1]

theorem validRun_conflict_eq (N : Nat) (txn : Nat → TxnProg) (base : Loc → Option Nat)
    (gasLimit : Option Nat) (run : ParRun) (hv : ValidRun N txn base gasLimit run) :
    moduleConflict N txn run gasLimit = seqModuleConflict N txn base gasLimit := by
  obtain ⟨hr, hw⟩ := validRun_moduleSets_eq N txn base gasLimit run hv
  rw [moduleConflict, seqModuleConflict, hr, hw]

theorem validRun_execute_eq (W N : Nat) (txn : Nat → TxnProg) (base : Loc → Option Nat)
    (gasLimit : Option Nat) (run : ParRun) (hv : ValidRun N txn base gasLimit run) :
    execute_transactions_parallel W N txn base gasLimit run =
      if seqModuleConflict N txn base gasLimit then
        Except.error BlockError.ModulePathReadWrite
      else Except.ok (execute_transactions_sequential N txn base gasLimit) := by
  rw [execute_transactions_parallel, validRun_conflict_eq N txn base gasLimit run hv,
    validRun_outputs_eq N txn base gasLimit run hv]

theorem seqHalted_mono (txn : Nat → TxnProg) (base : Loc → Option Nat)
    (gasLimit : Option Nat) (i : Nat) :
    ∀ j, i ≤ j → (seqState txn base gasLimit i).halted = true →
      (seqState txn base gasLimit j).halted = true := by
  intro j
  induction j with
  | zero =>
    intro hij h
    have h0 : i = 0 := Nat.le_zero.mp hij
    rw [← h0]
    exact h
  | succ j ih =>
    intro hij h
    by_cases hie : i = j + 1
    · rw [← hie]; exact h
    · have hij2 : i ≤ j := Nat.lt_succ_iff.mp (Nat.lt_of_le_of_ne hij hie)
      have hj := ih hij2 h
      show (seqStep gasLimit (txn j) (seqState txn base gasLimit j)).halted = true
      rw [seqStep, if_pos hj]
      exact hj

theorem seqHalted_false_below (txn : Nat → TxnProg) (base : Loc → Option Nat)
    (gasLimit : Option Nat) (k i : Nat) (hik : i ≤ k)
    (h : (seqState txn base gasLimit k).halted = false) :
    (seqState txn base gasLimit i).halted = false := by
  by_contra hcon
  have ht : (seqState txn base gasLimit i).halted = true := by
    simpa using hcon
  have := seqHalted_mono txn base gasLimit i k hik ht
  rw [h] at this
  simp at this

/-- Witness fixture: a two-transaction block.  Transaction 0 writes 7 to key 0;
transaction 1 reads key 0 and writes the successor of what it observed to key 1. -/
def wTxn : Nat → TxnProg
  | 0 => TxnProg.done ⟨[(⟨0, false⟩, 7)], [], 1, false⟩
  | 1 => TxnProg.readLoc ⟨0, false⟩ (fun v =>
      TxnProg.done ⟨[(⟨1, false⟩, v.getD 0 + 1)], [], 1, false⟩)
  | _ + 2 => TxnProg.done ⟨[], [], 0, false⟩

/-- Witness fixture: the empty base view. -/
def wBase : Loc → Option Nat := fun _ => none

/-- Witness fixture: a run answering every read with 7. -/
def wRun : ParRun := ⟨fun _ _ => some 7⟩

/-- Witness fixture: another run of the same block, differing from wRun in answers of
reads that no committed incarnation performs. -/
def wRun2 : ParRun := ⟨fun i _ => if i = 1 then some 7 else some 99⟩

/-- Witness fixture: the output vector of the witness parallel run. -/
def wOut : List Output := parOutputs 2 wTxn wRun none

/-- C1: for every block of transactions and base state view, the output vector
produced by parallel execution (execute_transactions_parallel, any concurrency
level W at least 1, any validated run) equals the output vector produced by
sequential execution of the same ordered transactions against the same base
view. -/
theorem parallel_equals_sequential (W N : Nat) (txn : Nat → TxnProg)
    (base : Loc → Option Nat) (gasLimit : Option Nat) (run : ParRun) (out : List Output)
    (hW : 1 ≤ W) (hv : ValidRun N txn base gasLimit run)
    (hok : execute_transactions_parallel W N txn base gasLimit run = Except.ok out) :
    out = execute_transactions_sequential N txn base gasLimit := by
  rw [validRun_execute_eq W N txn base gasLimit run hv] at hok
  by_cases hc : seqModuleConflict N txn base gasLimit
  · rw [if_pos hc] at hok
    exact absurd hok (by simp)
  · rw [if_neg hc] at hok
    injection hok with h
    exact h.symm

theorem parallel_equals_sequential_witness :
    (1 ≤ 2 ∧ ValidRun 2 wTxn wBase none wRun ∧
      execute_transactions_parallel 2 2 wTxn wBase none wRun = Except.ok wOut) ∧
    wOut = execute_transactions_sequential 2 wTxn wBase none := by
  have hv : ValidRun 2 wTxn wBase none wRun := by decide
  have hok : execute_transactions_parallel 2 2 wTxn wBase none wRun = Except.ok wOut := by
    rw [execute_transactions_parallel,
      if_neg (by decide : ¬ moduleConflict 2 wTxn wRun none = true)]
    rfl
  exact ⟨⟨by decide, hv, hok⟩,
    parallel_equals_sequential 2 2 wTxn wBase none wRun wOut (by decide) hv hok⟩

/-- C2: determinism: for a fixed input (transactions, base view, gas limit), any two
runs of the block executor, regardless of concurrency level or interleaving,
produce identical results. -/
theorem parallel_deterministic (W1 W2 N : Nat) (txn : Nat → TxnProg)
    (base : Loc → Option Nat) (gasLimit : Option Nat) (r1 r2 : ParRun)
    (hW1 : 1 ≤ W1) (hW2 : 1 ≤ W2) (h1 : ValidRun N txn base gasLimit r1)
    (h2 : ValidRun N txn base gasLimit r2) :
    execute_transactions_parallel W1 N txn base gasLimit r1 =
      execute_transactions_parallel W2 N txn base gasLimit r2 := by
  rw [validRun_execute_eq W1 N txn base gasLimit r1 h1,
    validRun_execute_eq W2 N txn base gasLimit r2 h2]

theorem parallel_deterministic_witness :
    (1 ≤ 1 ∧ 1 ≤ 4 ∧ ValidRun 2 wTxn wBase none wRun ∧
      ValidRun 2 wTxn wBase none wRun2) ∧
    execute_transactions_parallel 1 2 wTxn wBase none wRun =
      execute_transactions_parallel 4 2 wTxn wBase none wRun2 := by
  have h1 : ValidRun 2 wTxn wBase none wRun := by decide
  have h2 : ValidRun 2 wTxn wBase none wRun2 := by decide
  exact ⟨⟨by decide, by decide, h1, h2⟩,
    parallel_deterministic 1 4 2 wTxn wBase none wRun wRun2 (by decide) (by decide) h1 h2⟩

/-- C3: parallel block execution returns the block-level ModulePathReadWrite error,
instead of an output vector, exactly when some location of module kind is read by
one committed incarnation and written by one; in particular, when no module
location is both read and written the error is not returned. -/
theorem module_path_read_write_iff (W N : Nat) (txn : Nat → TxnProg)
    (base : Loc → Option Nat) (gasLimit : Option Nat) (run : ParRun) :
    (execute_transactions_parallel W N txn base gasLimit run =
        Except.error BlockError.ModulePathReadWrite) ↔
      ∃ l : Loc, l.isModule = true ∧
        (∃ i, i < N ∧ (parState txn run gasLimit i).1 = false ∧
          l ∈ runReadSet txn run i) ∧
        (∃ j, j < N ∧ (parState txn run gasLimit j).1 = false ∧
          l ∈ (runOut txn run j).writes.map Prod.fst) := by
  have hiff : (execute_transactions_parallel W N txn base gasLimit run =
      Except.error BlockError.ModulePathReadWrite) ↔
      moduleConflict N txn run gasLimit = true := by
    rw [execute_transactions_parallel]
    by_cases hc : moduleConflict N txn run gasLimit
    · simp [hc]
    · simp [hc]
  rw [hiff, moduleConflict]
  simp only [List.any_eq_true, decide_eq_true_eq, blockModuleReads, blockModuleWrites,
    committedIdxs, List.mem_flatMap, List.mem_filter, List.mem_range, Bool.not_eq_true']
  constructor
  · rintro ⟨x, ⟨i, ⟨hiN, hip⟩, hxr, hxm⟩, w, ⟨⟨j, ⟨hjN, hjp⟩, hww, hwm⟩, hwx⟩⟩
    exact ⟨x, hxm, ⟨i, hiN, hip, hxr⟩, ⟨j, hjN, hjp, hwx ▸ hww⟩⟩
  · rintro ⟨l, hm, ⟨i, hiN, hip, hir⟩, ⟨j, hjN, hjp, hjw⟩⟩
    exact ⟨l, ⟨i, ⟨hiN, hip⟩, hir, hm⟩, l, ⟨⟨j, ⟨hjN, hjp⟩, hjw, hm⟩, rfl⟩⟩

/-- C4: gas-cap truncation under the reference (sequential, in-order commit)
semantics: if the running cumulative gas first exceeds the per-block limit G at
commit of transaction index k, then slots 0..k carry the normal outputs and every
later slot carries status Retry with an empty write-set. -/
theorem gas_cap_truncation (N : Nat) (txn : Nat → TxnProg) (base : Loc → Option Nat)
    (G k : Nat) (hk : k < N)
    (hcommit : (seqState txn base (some G) k).halted = false)
    (hexceed : G < (seqState txn base (some G) (k + 1)).gasUsed) :
    execute_transactions_sequential N txn base (some G) =
      (List.range N).map (fun i =>
        if i ≤ k then mkOutput (seqTxnOut txn base (some G) i) else retryOutput) := by
  have hgas : (seqState txn base (some G) (k + 1)).gasUsed =
      (seqState txn base (some G) k).gasUsed + (seqTxnOut txn base (some G) k).gas := by
    show (seqStep (some G) (txn k) (seqState txn base (some G) k)).gasUsed = _
    rw [seqStep, if_neg (by simp [hcommit])]
    rfl
  have hkp1 : (seqState txn base (some G) (k + 1)).halted = true := by
    show (seqStep (some G) (txn k) (seqState txn base (some G) k)).halted = true
    rw [seqStep, if_neg (by simp [hcommit])]
    have hge : gasExceeds (some G) ((seqState txn base (some G) k).gasUsed +
        ((runProgTrace (seqState txn base (some G) k).store (txn k)).1).gas) = true := by
      rw [gasExceeds]
      exact decide_eq_true (by rw [← seqTxnOut, ← hgas]; exact hexceed)
    simp [hge]
  apply List.map_congr_left
  intro i hi
  by_cases hik : i ≤ k
  · have hfi : (seqState txn base (some G) i).halted = false :=
      seqHalted_false_below txn base (some G) k i hik hcommit
    rw [seqOutAt, if_neg (by simp [hfi]), if_pos hik]
  · have hki : k + 1 ≤ i := Nat.succ_le_of_lt (Nat.lt_of_not_le hik)
    have hti : (seqState txn base (some G) i).halted = true :=
      seqHalted_mono txn base (some G) (k + 1) i hki hkp1
    rw [seqOutAt, if_pos (by simp [hti]), if_neg hik]

/-- Witness fixture: three unit-gas transactions with no reads or writes. -/
def wTxnGas : Nat → TxnProg := fun _ => TxnProg.done ⟨[], [], 1, false⟩

theorem gas_cap_truncation_witness :
    (1 < 3 ∧ (seqState wTxnGas wBase (some 1) 1).halted = false ∧
      1 < (seqState wTxnGas wBase (some 1) 2).gasUsed) ∧
    execute_transactions_sequential 3 wTxnGas wBase (some 1) =
      (List.range 3).map (fun i =>
        if i ≤ 1 then mkOutput (seqTxnOut wTxnGas wBase (some 1) i) else retryOutput) := by
  exact ⟨⟨by decide, by decide, by decide⟩,
    gas_cap_truncation 3 wTxnGas wBase 1 1 (by decide) (by decide) (by decide)⟩

/-- C5: whenever parallel execution succeeds (no block-level error), the output
vector has exactly one slot per input transaction, in input order: committed
transactions occupy their slot with their normal output and skipped transactions
still occupy their slot with status Retry and an empty write-set; the sequential
reference output has the same length. -/
theorem output_length_and_slots (W N : Nat) (txn : Nat → TxnProg)
    (base : Loc → Option Nat) (gasLimit : Option Nat) (run : ParRun) (out : List Output)
    (hok : execute_transactions_parallel W N txn base gasLimit run = Except.ok out) :
    out.length = N ∧
      (execute_transactions_sequential N txn base gasLimit).length = N ∧
      out = (List.range N).map (fun i =>
        if (parState txn run gasLimit i).1 then retryOutput
        else mkOutput (runOut txn run i)) := by
  have hout : out = parOutputs N txn run gasLimit := by
    rw [execute_transactions_parallel] at hok
    by_cases hc : moduleConflict N txn run gasLimit
    · rw [if_pos hc] at hok
      exact absurd hok (by simp)
    · rw [if_neg hc] at hok
      injection hok with h
      exact h.symm
  refine ⟨?_, ?_, ?_⟩
  · rw [hout, parOutputs, List.length_map, List.length_range]
  · rw [execute_transactions_sequential, List.length_map, List.length_range]
  · rw [hout]
    rfl

theorem output_length_and_slots_witness :
    execute_transactions_parallel 2 2 wTxn wBase none wRun = Except.ok wOut ∧
      (wOut.length = 2 ∧
        (execute_transactions_sequential 2 wTxn wBase none).length = 2 ∧
        wOut = (List.range 2).map (fun i =>
          if (parState wTxn wRun none i).1 then retryOutput
          else mkOutput (runOut wTxn wRun i))) := by
  have hok : execute_transactions_parallel 2 2 wTxn wBase none wRun = Except.ok wOut := by
    rw [execute_transactions_parallel,
      if_neg (by decide : ¬ moduleConflict 2 wTxn wRun none = true)]
    rfl
  exact ⟨hok, output_length_and_slots 2 2 wTxn wBase none wRun wOut hok⟩

end BlockSTM

namespace MVDS

theorem predEntry_none (l txi : Nat) :
    ∀ m : List Entry, predEntry m l txi = none →
      ∀ e ∈ m, e.loc = l → ¬ e.txi < txi := by
  intro m
  induction m with
  | nil =>
    intro _ e he
    cases he
  | cons a rest ih =>
    intro h
    rw [predEntry] at h
    by_cases hc : a.loc = l ∧ a.txi < txi
    · rw [if_pos hc] at h
      cases hr : predEntry rest l txi with
      | none =>
        rw [hr] at h
        simp at h
      | some b =>
        rw [hr] at h
        by_cases hab : b.txi < a.txi <;> simp [hab] at h
    · rw [if_neg hc] at h
      intro e he hl
      rcases List.mem_cons.mp he with he1 | he2
      · subst he1
        intro hlt
        exact hc ⟨hl, hlt⟩
      · exact ih h e he2 hl

theorem predEntry_some (l txi : Nat) :
    ∀ (m : List Entry) (e : Entry), predEntry m l txi = some e →
      e ∈ m ∧ e.loc = l ∧ e.txi < txi ∧
        ∀ e2 ∈ m, e2.loc = l → e2.txi < txi → e2.txi ≤ e.txi := by
  intro m
  induction m with
  | nil =>
    intro e h
    cases h
  | cons a rest ih =>
    intro e h
    rw [predEntry] at h
    by_cases hc : a.loc = l ∧ a.txi < txi
    · rw [if_pos hc] at h
      cases hr : predEntry rest l txi with
      | none =>
        rw [hr] at h
        have h2 : some a = some e := h
        have hae : a = e := by injection h2
        subst hae
        refine ⟨List.mem_cons_self a rest, hc.1, hc.2, ?_⟩
        intro e2 he2 hl2 hlt2
        rcases List.mem_cons.mp he2 with h1 | h2
        · subst h1
          exact Nat.le_refl _
        · exact absurd hlt2 (predEntry_none l txi rest hr e2 h2 hl2)
      | some b =>
        rw [hr] at h
        have h2 : (if b.txi < a.txi then some a else some b) = some e := h
        obtain ⟨hbm, hbl, hbt, hbmax⟩ := ih b hr
        by_cases hab : b.txi < a.txi
        · rw [if_pos hab] at h2
          have hae : a = e := by injection h2
          subst hae
          refine ⟨List.mem_cons_self a rest, hc.1, hc.2, ?_⟩
          intro e2 he2 hl2 hlt2
          rcases List.mem_cons.mp he2 with h1 | h2
          · subst h1
            exact Nat.le_refl _
          · exact Nat.le_trans (hbmax e2 h2 hl2 hlt2) (Nat.le_of_lt hab)
        · rw [if_neg hab] at h2
          have hbe : b = e := by injection h2
          subst hbe
          refine ⟨List.mem_cons_of_mem a hbm, hbl, hbt, ?_⟩
          intro e2 he2 hl2 hlt2
          rcases List.mem_cons.mp he2 with h1 | h2
          · subst h1
            exact Nat.le_of_not_lt hab
          · exact hbmax e2 h2 hl2 hlt2
    · rw [if_neg hc] at h
      obtain ⟨hm, hl, ht, hmax⟩ := ih e h
      refine ⟨List.mem_cons_of_mem a hm, hl, ht, ?_⟩
      intro e2 he2 hl2 hlt2
      rcases List.mem_cons.mp he2 with h1 | h2
      · subst h1
        exact absurd ⟨hl2, hlt2⟩ hc
      · exact hmax e2 h2 hl2 hlt2

theorem predEntry_setIncs (l txi : Nat) (f : Nat → Nat) :
    ∀ m : List Entry, predEntry (setIncs f m) l txi =
      Option.map (setInc f) (predEntry m l txi) := by
  intro m
  induction m with
  | nil => rfl
  | cons a rest ih =>
    show predEntry (setInc f a :: setIncs f rest) l txi = _
    rw [predEntry, predEntry, ih]
    by_cases hc : a.loc = l ∧ a.txi < txi
    · rw [if_pos hc,
        if_pos (show (setInc f a).loc = l ∧ (setInc f a).txi < txi from hc)]
      cases hr : predEntry rest l txi with
      | none => rfl
      | some b =>
        show (if (setInc f b).txi < (setInc f a).txi then some (setInc f a)
            else some (setInc f b)) =
          Option.map (setInc f) (if b.txi < a.txi then some a else some b)
        by_cases hab : b.txi < a.txi
        · rw [if_pos (show (setInc f b).txi < (setInc f a).txi from hab), if_pos hab]
          rfl
        · rw [if_neg (show ¬ (setInc f b).txi < (setInc f a).txi from hab), if_neg hab]
          rfl
    · rw [if_neg hc,
        if_neg (show ¬ ((setInc f a).loc = l ∧ (setInc f a).txi < txi) from hc)]

/-- C6: the versioned read obeys the predecessor rule: it is decided by the entry at
the largest writer index strictly below the reader (never failing: every case is
covered); an Estimate entry is surfaced as Dependency on its writer; with no
entry below the reader the result is Storage; and the predecessor choice is
independent of incarnation numbers. -/
theorem read_predecessor_rule (m : List Entry) (l txi : Nat) (f : Nat → Nat) :
    (predEntry m l txi = none →
      read m l txi = ReadResult.Storage ∧ ∀ e ∈ m, e.loc = l → ¬ e.txi < txi) ∧
    (∀ e, predEntry m l txi = some e →
      e ∈ m ∧ e.loc = l ∧ e.txi < txi ∧
        (∀ e2 ∈ m, e2.loc = l → e2.txi < txi → e2.txi ≤ e.txi) ∧
        (e.flag = Flag.Estimate → read m l txi = ReadResult.Dependency e.txi) ∧
        (e.flag = Flag.Resolved →
          read m l txi = ReadResult.Value e.value (e.txi, e.inc))) ∧
    predEntry (setIncs f m) l txi = Option.map (setInc f) (predEntry m l txi) := by
  refine ⟨?_, ?_, predEntry_setIncs l txi f m⟩
  · intro h
    refine ⟨?_, predEntry_none l txi m h⟩
    rw [read, h]
  · intro e h
    obtain ⟨hm, hl, ht, hmax⟩ := predEntry_some l txi m e h
    refine ⟨hm, hl, ht, hmax, ?_, ?_⟩
    · intro hf
      rw [read, h]
      simp [hf]
    · intro hf
      rw [read, h]
      simp [hf]

theorem read_predecessor_rule_witness :
    read [⟨0, 1, 42, 5, Flag.Estimate⟩] 0 2 = ReadResult.Dependency 1 := by
  have h := (read_predecessor_rule [⟨0, 1, 42, 5, Flag.Estimate⟩] 0 2 id).2.1
    ⟨0, 1, 42, 5, Flag.Estimate⟩ (by decide)
  exact h.2.2.2.2.1 rfl

theorem mark_estimate_get (m : List Entry) (l txi i : Nat) :
    (mark_estimate m l txi)[i]? = Option.map
      (fun e => if e.loc = l ∧ e.txi = txi then
        (⟨e.loc, e.txi, e.value, e.inc, Flag.Estimate⟩ : Entry) else e)
      m[i]? := by
  rw [mark_estimate, List.getElem?_map]

/-- C8: marking an aborted incarnation's write-set as Estimate never deletes an
entry (the store keeps its length) and rewrites each position as follows: the
entries at the aborted (location, transaction) pairs keep their location, writer
index, value and incarnation and only have their flag set to Estimate, while
every other entry is completely unchanged. -/
theorem mark_estimate_frame (m : List Entry) (ws : List Nat) (txi i : Nat) :
    (mark_estimate_all m ws txi).length = m.length ∧
    (mark_estimate_all m ws txi)[i]? = Option.map
      (fun e => if e.txi = txi ∧ e.loc ∈ ws then
        (⟨e.loc, e.txi, e.value, e.inc, Flag.Estimate⟩ : Entry) else e)
      m[i]? := by
  induction ws generalizing m with
  | nil =>
    refine ⟨rfl, ?_⟩
    show m[i]? = _
    cases m[i]? with
    | none => rfl
    | some e => simp
  | cons w ws ih =>
    have hstep : mark_estimate_all m (w :: ws) txi =
        mark_estimate_all (mark_estimate m w txi) ws txi := rfl
    obtain ⟨ihlen, ihget⟩ := ih (mark_estimate m w txi)
    constructor
    · rw [hstep, ihlen, mark_estimate, List.length_map]
    · rw [hstep, ihget, mark_estimate_get, Option.map_map]
      cases m[i]? with
      | none => rfl
      | some e =>
        simp only [Option.map_some', Function.comp_apply]
        by_cases h1 : e.txi = txi
        · by_cases h2 : e.loc = w
          · by_cases h3 : e.loc ∈ ws <;>
              simp [h1, h2, h3, List.mem_cons]
          · by_cases h3 : e.loc ∈ ws <;>
              simp [h1, h2, h3, List.mem_cons]
        · simp [h1]

end MVDS

namespace AggDelta

theorem materialize_of_inBounds (lb ub : Int) :
    ∀ (ds : List Int) (base : Int), prefixSumsInBounds lb ub base ds →
      materialize lb ub base ds = some (base + ds.sum) := by
  intro ds
  induction ds with
  | nil =>
    intro base _
    simp [materialize]
  | cons d ds ih =>
    intro base h
    have h1 := h 1 (by simp)
    rw [List.take_succ_cons, List.take_zero, List.sum_cons, List.sum_nil] at h1
    have happ : applyDelta lb ub base d = some (base + d) := by
      rw [applyDelta, if_pos]
      exact ⟨by simpa using h1.1, by simpa using h1.2⟩
    have hrest : prefixSumsInBounds lb ub (base + d) ds := by
      intro n hn
      have h2 := h (n + 1) (by simpa using Nat.succ_le_succ hn)
      rw [List.take_succ_cons, List.sum_cons] at h2
      constructor
      · have := h2.1
        linarith
      · have := h2.2
        linarith
    show (match applyDelta lb ub base d with
      | some w => materialize lb ub w ds
      | none => none) = _
    rw [happ]
    show materialize lb ub (base + d) ds = some (base + (d :: ds).sum)
    rw [ih (base + d) hrest, List.sum_cons]
    congr 1
    ring

/-- C7: aggregator-delta commutativity: for deltas on one bounded counter whose
partial sums stay within the declared bounds at every prefix, applying them in
any permuted order materializes the same final value as the canonical index
order. -/
theorem delta_commutativity (lb ub base : Int) (ds l : List Int) (hperm : l.Perm ds)
    (hl : prefixSumsInBounds lb ub base l) (hd : prefixSumsInBounds lb ub base ds) :
    materialize lb ub base l = materialize lb ub base ds := by
  rw [materialize_of_inBounds lb ub l base hl, materialize_of_inBounds lb ub ds base hd,
    hperm.sum_eq]

theorem delta_commutativity_witness :
    (List.Perm [(2 : Int), 3] [(3 : Int), 2] ∧
      prefixSumsInBounds 0 10 0 [(2 : Int), 3] ∧
      prefixSumsInBounds 0 10 0 [(3 : Int), 2]) ∧
    materialize 0 10 0 [(2 : Int), 3] = materialize 0 10 0 [(3 : Int), 2] := by
  have hperm : List.Perm [(2 : Int), 3] [(3 : Int), 2] := List.Perm.swap 3 2 []
  have hl : prefixSumsInBounds 0 10 0 [(2 : Int), 3] := by decide
  have hd : prefixSumsInBounds 0 10 0 [(3 : Int), 2] := by decide
  exact ⟨⟨hperm, hl, hd⟩, delta_commutativity 0 10 0 [(3 : Int), 2] [(2 : Int), 3] hperm hl hd⟩

end AggDelta

namespace AptosVM

theorem foldl_set_some (numCpus : Nat) :
    ∀ (rs : List Nat) (v : Nat),
      rs.foldl (set_concurrency_level_once numCpus) (some v) = some v := by
  intro rs
  induction rs with
  | nil =>
    intro v
    rfl
  | cons r rest ih =>
    intro v
    exact ih v

/-- C9: the effective concurrency level is a write-once value: over any sequence of
calls, set_concurrency_level_once clamps the requested level to the number of
logical CPUs and only the first call takes effect, and get_concurrency_level
returns the stored value when set and the default 1 (sequential execution)
otherwise. -/
theorem concurrency_level_write_once (numCpus : Nat) (rs : List Nat) :
    get_concurrency_level (rs.foldl (set_concurrency_level_once numCpus) none) =
      match rs with
      | [] => 1
      | r :: _ => min r numCpus := by
  cases rs with
  | nil => rfl
  | cons r rest =>
    show get_concurrency_level (rest.foldl (set_concurrency_level_once numCpus)
      (set_concurrency_level_once numCpus none r)) = min r numCpus
    rw [show set_concurrency_level_once numCpus none r = some (min r numCpus) from rfl,
      foldl_set_some numCpus rest (min r numCpus)]
    rfl

/-- C10: should_restart_execution returns true exactly when the output's event list
contains at least one event whose key equals the new-epoch event key. -/
theorem should_restart_iff_new_epoch_event (k : Nat) (vmOutput : TransactionOutput) :
    should_restart_execution k vmOutput = true ↔ ∃ e ∈ vmOutput.events, e.key = k := by
  rw [should_restart_execution, List.any_eq_true]
  simp

end AptosVM
